import Mathlib

/-!
Verification of the mo-gc crate: a shallow embedding of the journal queue
(`src/journal.rs`), the root/object metadata and their bit-flag operations
(`src/heap.rs`), the drain / mark / sweep / merge phases of the young-generation
collector (`src/youngheap.rs`), the promotion scan of the major collection, the
collector main-loop scheduling (`src/gcthread.rs`), and the mutator-side journal
record construction (`src/appthread.rs`).  Machine words (`usize`) are modelled
as `Nat` with explicit `% 2 ^ 64` where wrap-around matters; the bit masks
`!1`, `!2`, `!3` become `2 ^ 64 - 2`, `2 ^ 64 - 3`, `2 ^ 64 - 4`.
-/

namespace MoGc

/-- Modulus of `usize` arithmetic on the 64-bit targets the crate's
`ptr_shift` assumes (see `gcthread.rs`). -/
def usizeMod : Nat := 2 ^ 64

/-! Constants from `src/constants.rs`. -/

/-- constants.rs: `MAX_SLEEP_DUR = 100` (milliseconds). -/
def MAX_SLEEP_DUR : Nat := 100

/-- constants.rs: `MIN_SLEEP_DUR = 1` (millisecond). -/
def MIN_SLEEP_DUR : Nat := 1

/-- constants.rs: `MAJOR_COLLECT_THRESHOLD = 1 << 20`. -/
def MAJOR_COLLECT_THRESHOLD : Nat := 1 <<< 20

/-- constants.rs: `PTR_MASK = !3`. -/
def PTR_MASK : Nat := usizeMod - 4

/-- constants.rs: `MARK_BIT = 1`. -/
def MARK_BIT : Nat := 1

/-- constants.rs: `MARK_MASK = !1`. -/
def MARK_MASK : Nat := usizeMod - 2

/-- constants.rs: `TRAVERSE_BIT = 2`. -/
def TRAVERSE_BIT : Nat := 2

/-- constants.rs: `FLAGS_MASK = 3` (low bits of a journaled address). -/
def FLAGS_MASK : Nat := 3

/-- constants.rs: `INC_BIT = 1`. -/
def INC_BIT : Nat := 1

/-- constants.rs: `NEW_BIT = 2`. -/
def NEW_BIT : Nat := 2

/-- constants.rs: `NEW_MASK = !2`. -/
def NEW_MASK : Nat := usizeMod - 3

/-- constants.rs: journal flag value `NEW_INC = 3`. -/
def NEW_INC : Nat := 3

/-- constants.rs: journal flag value `NEW = 2`. -/
def NEW : Nat := 2

/-- constants.rs: journal flag value `INC = 1`. -/
def INC : Nat := 1

/-- constants.rs: journal flag value `DEC = 0`. -/
def DEC : Nat := 0

/-! Bit-arithmetic helper lemmas used to reason about the flag words. -/

theorem land_one_eq_mod (f : Nat) : f &&& 1 = f % 2 := Nat.and_one_is_mod f

theorem land_three_eq_mod (f : Nat) : f &&& 3 = f % 4 := by
  apply Nat.eq_of_testBit_eq
  intro i
  rw [show (3 : Nat) = 2 ^ 2 - 1 by decide, show (4 : Nat) = 2 ^ 2 by decide]
  rw [Nat.testBit_land, Nat.testBit_two_pow_sub_one, Nat.testBit_mod_two_pow]
  cases f.testBit i <;> simp

theorem land_two_eq (f : Nat) : f &&& 2 = f / 2 % 2 * 2 := by
  rw [show (2 : Nat) = 2 ^ 1 by decide, Nat.and_two_pow]
  rw [Nat.testBit_succ, Nat.testBit_zero]
  rcases Nat.mod_two_eq_zero_or_one (f / 2) with h | h <;> simp [h]

theorem lor_one_land_one (f : Nat) : (f ||| 1) &&& 1 = 1 := by
  rw [show (1 : Nat) = 2 ^ 0 by decide, Nat.and_two_pow]
  simp [Nat.testBit_lor]

theorem lor_one_land_two (f : Nat) : (f ||| 1) &&& 2 = f &&& 2 := by
  rw [show (2 : Nat) = 2 ^ 1 by decide, Nat.and_two_pow, Nat.and_two_pow]
  rw [Nat.testBit_lor]
  rw [show Nat.testBit 1 1 = false by decide]
  simp

theorem lor_two_land_two (f : Nat) : (f ||| 2) &&& 2 = 2 := by
  rw [show (2 : Nat) = 2 ^ 1 by decide, Nat.and_two_pow]
  rw [Nat.testBit_lor]
  rw [show Nat.testBit (2 ^ 1) 1 = true by decide]
  simp

theorem land_mark_mask_land_one (f : Nat) : (f &&& MARK_MASK) &&& 1 = 0 := by
  rw [show (1 : Nat) = 2 ^ 0 by decide, Nat.and_two_pow]
  rw [Nat.testBit_land]
  rw [show MARK_MASK.testBit 0 = false by decide]
  simp

/-! Core data types from `src/heap.rs`. -/

/-- heap.rs `Object`: a journal record, a `Send`-able fat pointer. -/
structure Object where
  ptr : Nat
  vtable : Nat
deriving Repr, DecidableEq

/-- gcthread.rs `ptr_shift`: picks the address shift by comparing
`size_of::<usize>()` (a number of bytes, so 4 or 8) against `32`. -/
def ptr_shift (sizeOfUsize : Nat) : Nat :=
  if sizeOfUsize = 32 then 2 else 3

/-- heap.rs `Object::from_trie_ptr`: rebuild a journal record from a trie key by
shifting the key left by `ptr_shift()`. -/
def Object.from_trie_ptr (sizeOfUsize : Nat) (ptr vtable : Nat) : Object :=
  { ptr := ptr <<< ptr_shift sizeOfUsize, vtable := vtable }

/-- heap.rs `RootMeta`: refcount, trace vtable word and flag word of one root-map
entry. -/
structure RootMeta where
  refcount : Nat
  vtable : Nat
  flags : Nat
deriving Repr, DecidableEq

/-- heap.rs `RootMeta::one`: refcount 1. -/
def RootMeta.one (vtable flags : Nat) : RootMeta := ⟨1, vtable, flags⟩

/-- heap.rs `RootMeta::zero`: refcount 0. -/
def RootMeta.zero (vtable flags : Nat) : RootMeta := ⟨0, vtable, flags⟩

/-- heap.rs `RootMeta::inc`: `fetch_add(1)` on the `usize` refcount. -/
def RootMeta.inc (m : RootMeta) : RootMeta :=
  { m with refcount := (m.refcount + 1) % usizeMod }

/-- heap.rs `RootMeta::dec`: `fetch_sub(1)` on the `usize` refcount; on a zero
refcount the subtraction wraps to `2 ^ 64 - 1`. -/
def RootMeta.dec (m : RootMeta) : RootMeta :=
  { m with refcount := (m.refcount + (usizeMod - 1)) % usizeMod }

/-- heap.rs `RootMeta::unsync_is_unrooted`: zero refcount test. -/
def RootMeta.unsync_is_unrooted (m : RootMeta) : Bool := m.refcount == 0

/-- heap.rs `RootMeta::is_new`: `flags & NEW_BIT != 0`. -/
def RootMeta.is_new (m : RootMeta) : Bool := m.flags &&& NEW_BIT != 0

/-- heap.rs `RootMeta::is_new_and_unmarked`: `flags & (MARK_BIT | NEW_BIT) == NEW_BIT`. -/
def RootMeta.is_new_and_unmarked (m : RootMeta) : Bool :=
  m.flags &&& (MARK_BIT ||| NEW_BIT) == NEW_BIT

/-- heap.rs `RootMeta::set_not_new`: clear the NEW bit with `NEW_MASK`. -/
def RootMeta.set_not_new (m : RootMeta) : RootMeta :=
  { m with flags := m.flags &&& NEW_MASK }

/-- heap.rs `RootMeta::mark_and_needs_trace`: set the mark bit if it was clear and
report whether the entry needs tracing (it was unmarked and has the bit tested by
`TRAVERSE_BIT` set in its flag word). Returns the updated entry and the report. -/
def RootMeta.mark_and_needs_trace (m : RootMeta) : RootMeta × Bool :=
  let was_unmarked := m.flags &&& MARK_BIT == 0
  (if was_unmarked then { m with flags := m.flags ||| MARK_BIT } else m,
   was_unmarked && (m.flags &&& TRAVERSE_BIT != 0))

/-- heap.rs `RootMeta::unmark`: clear the mark bit with `MARK_MASK`. -/
def RootMeta.unmark (m : RootMeta) : RootMeta :=
  { m with flags := m.flags &&& MARK_MASK }

/-- heap.rs `RootMeta::vtable()`: the vtable word with the low flag bits masked
off by `PTR_MASK` (named `vtableMasked` here because the field keeps the source
field name `vtable`). -/
def RootMeta.vtableMasked (m : RootMeta) : Nat := m.vtable &&& PTR_MASK

/-- heap.rs `ObjectMeta`: one mature-map word carrying the trace vtable, with bit
0 documented as the mark bit and bit 1 as the traversibility bit. -/
structure ObjectMeta where
  vtable : Nat
deriving Repr, DecidableEq

/-- heap.rs `ObjectMeta::new`. -/
def ObjectMeta.new (vtable : Nat) : ObjectMeta := ⟨vtable⟩

/-- heap.rs `ObjectMeta::mark_and_needs_trace`, transcribed exactly as written:
`was_marked` is bound to `vtable & MARK_BIT == 0`, the bit is stored only under
`if !was_marked`, and the result is `!was_marked && vtable & TRAVERSE_BIT != 0`. -/
def ObjectMeta.mark_and_needs_trace (m : ObjectMeta) : ObjectMeta × Bool :=
  let was_marked := m.vtable &&& MARK_BIT == 0
  (if !was_marked then { m with vtable := m.vtable ||| MARK_BIT } else m,
   !was_marked && (m.vtable &&& TRAVERSE_BIT != 0))

/-- C3: the mature heap's mark step does not use an engine equivalent to the
minor cycle's.  On a word with the MARK bit clear and the TRAVERSE bit set,
`RootMeta::mark_and_needs_trace` sets the MARK bit and returns `true`, while
`ObjectMeta::mark_and_needs_trace` leaves the MARK bit clear and returns
`false` (its `was_marked` binding is inverted), contradicting both the claimed
equivalence and the function's own doc comment. -/
theorem claim_C3_mark_engines_diverge :
    RootMeta.mark_and_needs_trace ⟨1, 0, TRAVERSE_BIT⟩ =
      (⟨1, 0, TRAVERSE_BIT ||| MARK_BIT⟩, true) ∧
    ObjectMeta.mark_and_needs_trace ⟨TRAVERSE_BIT⟩ = (⟨TRAVERSE_BIT⟩, false) ∧
    (ObjectMeta.mark_and_needs_trace ⟨TRAVERSE_BIT⟩).1.vtable &&& MARK_BIT = 0 := by
  decide

/-- youngheap.rs `major_collection` promotion scan body (lines 155-164): an entry
with a positive refcount and the NEW flag has its masked vtable
(`RootMeta::vtable()`, i.e. `vtable & PTR_MASK`) handed to
`mature.add_object` and its NEW flag cleared; the entry itself stays in the
root map.  Returns the word inserted into the mature map (if any) and the
updated root entry. -/
def promoteEntry (meta : RootMeta) : Option Nat × RootMeta :=
  if !meta.unsync_is_unrooted && meta.is_new then
    (some meta.vtableMasked, meta.set_not_new)
  else
    (none, meta)

/-- C5: promotion does clear the NEW flag and keep the entry, but the word
inserted into the mature map is `vtable & PTR_MASK`, which strips the TRAVERSE
bit: for a rooted NEW entry whose vtable word is `8 | TRAVERSE_BIT`, the mature
map receives `8`, whose TRAVERSE bit is clear, although the root entry's vtable
word carried the bit. -/
theorem claim_C5_promotion_strips_traverse :
    promoteEntry ⟨1, 8 ||| TRAVERSE_BIT, NEW_BIT⟩ =
      (some 8, ⟨1, 8 ||| TRAVERSE_BIT, 0⟩) ∧
    (8 ||| TRAVERSE_BIT) &&& TRAVERSE_BIT ≠ 0 ∧
    (8 : Nat) &&& TRAVERSE_BIT = 0 := by
  decide

/-! Collector main-loop scheduling, from `gc_thread` in `src/gcthread.rs`
(lines 104-135 of the loop body, after `read_journals` has returned). -/

/-- Result of one main-loop iteration: the sleep performed this iteration (with
its duration, `none` when the drain was non-empty and no sleep happened), the
`sleep_dur` value left for the next iteration, and whether a major collection
was run. -/
structure IterResult where
  slept : Option Nat
  nextSleepDur : Nat
  majorRun : Bool
deriving Repr, DecidableEq

/-- gcthread.rs `gc_thread` loop body after `read_journals`: when nothing was
read, sleep for the current `sleep_dur` and double it up to `MAX_SLEEP_DUR`;
otherwise reset `sleep_dur` to `MIN_SLEEP_DUR`.  A major collection runs iff
afterwards `sleep_dur != MIN_SLEEP_DUR` and the minor collection's young count
reached `MAJOR_COLLECT_THRESHOLD`. -/
def gcIteration (sleepDur entriesRead youngCount : Nat) : IterResult :=
  if entriesRead = 0 then
    let nextDur := min (sleepDur * 2) MAX_SLEEP_DUR
    ⟨some sleepDur, nextDur,
     (nextDur != MIN_SLEEP_DUR) && decide (MAJOR_COLLECT_THRESHOLD ≤ youngCount)⟩
  else
    ⟨none, MIN_SLEEP_DUR,
     (MIN_SLEEP_DUR != MIN_SLEEP_DUR) && decide (MAJOR_COLLECT_THRESHOLD ≤ youngCount)⟩

/-- C9 counterexample: in the iteration that enters with `sleep_dur = 1` and an
empty drain, the collector sleeps exactly the minimum (1 ms, not strictly
longer), yet a major collection runs when the young count reaches the
threshold — refuting that a major collection is never run when the
most-recent-sleep condition fails. -/
theorem claim_C9_counterexample :
    gcIteration MIN_SLEEP_DUR 0 MAJOR_COLLECT_THRESHOLD =
      ⟨some MIN_SLEEP_DUR, 2, true⟩ ∧
    ¬ MIN_SLEEP_DUR > MIN_SLEEP_DUR := by
  constructor
  · decide
  · decide

/-- C9 (amended): a major collection is run iff the iteration's drain read zero
journal entries (equivalently, the driver slept this iteration — possibly for
0 ms or for exactly the 1 ms minimum) and the minor collection's young count
reached `MAJOR_COLLECT_THRESHOLD`. -/
theorem claim_C9_amended (sleepDur entriesRead youngCount : Nat) :
    (gcIteration sleepDur entriesRead youngCount).majorRun = true ↔
      entriesRead = 0 ∧ MAJOR_COLLECT_THRESHOLD ≤ youngCount := by
  unfold gcIteration
  by_cases h : entriesRead = 0
  · simp only [h, if_pos rfl]
    have hne : min (sleepDur * 2) MAX_SLEEP_DUR ≠ MIN_SLEEP_DUR := by
      unfold MAX_SLEEP_DUR MIN_SLEEP_DUR
      omega
    simp [hne]
  · simp [h, MIN_SLEEP_DUR]

/-- C9 amended witness at a concrete iteration: a non-empty drain (so the reset
branch) with a huge young count runs no major collection. -/
theorem claim_C9_amended_witness :
    ¬ ((gcIteration 100 5 MAJOR_COLLECT_THRESHOLD).majorRun = true) := by
  rw [claim_C9_amended 100 5 MAJOR_COLLECT_THRESHOLD]
  decide

/-- C10: `ptr_shift` evaluates to `3` for both word sizes (4 and 8 bytes),
because the 32-bit branch tests `size_of::<usize>() == 32`; consequently
`Object::from_trie_ptr (p >> ptr_shift()) v` recovers `p` exactly when `p` is
a multiple of 8. -/
theorem claim_C10_ptr_shift (wordBytes : Nat) (hw : wordBytes = 4 ∨ wordBytes = 8) :
    ptr_shift wordBytes = 3 ∧
    ∀ p v : Nat,
      ((Object.from_trie_ptr wordBytes (p >>> ptr_shift wordBytes) v).ptr = p ↔
        p % 8 = 0) := by
  have h3 : ptr_shift wordBytes = 3 := by
    rcases hw with h | h <;> simp [ptr_shift, h]
  refine ⟨h3, fun p v => ?_⟩
  rw [Object.from_trie_ptr, h3]
  rw [Nat.shiftRight_eq_div_pow, Nat.shiftLeft_eq]
  show p / 2 ^ 3 * 2 ^ 3 = p ↔ p % 8 = 0
  constructor
  · intro h
    omega
  · intro h
    omega

/-- C10 witness: on the 4-byte word size the shift is still 3, and the address
12 — word-aligned on such a target but not a multiple of 8 — does not survive
the round trip, while 16 does. -/
theorem claim_C10_witness :
    ptr_shift 4 = 3 ∧
    ((Object.from_trie_ptr 4 (16 >>> ptr_shift 4) 0).ptr = 16 ↔ (16 : Nat) % 8 = 0) ∧
    ((Object.from_trie_ptr 4 (12 >>> ptr_shift 4) 0).ptr = 12 ↔ (12 : Nat) % 8 = 0) :=
  ⟨(claim_C10_ptr_shift 4 (Or.inl rfl)).1,
   (claim_C10_ptr_shift 4 (Or.inl rfl)).2 16 0,
   (claim_C10_ptr_shift 4 (Or.inl rfl)).2 12 0⟩

/-! Drain phase, from `YoungHeap::read_journals` in `src/youngheap.rs`. -/

/-- Trie key of a journal record: `entry.ptr >> ptr_shift()` (youngheap.rs
drains on the 64-bit target, so the shift is `ptr_shift 8 = 3`). -/
def keyOf (e : Object) : Nat := e.ptr >>> ptr_shift 8

/-- Flag bits of a journal record: `entry.ptr & FLAGS_MASK`. -/
def flagOf (e : Object) : Nat := e.ptr &&& FLAGS_MASK

/-- Collector state touched by the drain: the root trie (keyed by shifted
address) and the deferred decrement buffer (fields `roots` and `deferred` of
`YoungHeap`). -/
structure DrainState where
  roots : Nat → Option RootMeta
  deferred : List Object

/-- Point update of the root trie, the effect of `Trie::set` (and of the insert
performed by `get_default_mut` when the key is absent). -/
def trieSet (m : Nat → Option RootMeta) (k : Nat) (v : RootMeta) :
    Nat → Option RootMeta :=
  fun k2 => if k2 = k then some v else m k2

/-- One journal record processed by `YoungHeap::read_journals` (youngheap.rs
lines 104-128): dispatch on `entry.ptr & FLAGS_MASK`; `NEW_INC` and `NEW`
insert fresh `RootMeta` values, `INC` upserts with a zero default and then
increments, `DEC` is pushed onto the deferred buffer.  The final branch is the
source's `unreachable!()` arm, which cannot fire because `ptr & 3 < 4`. -/
def readEntry (s : DrainState) (e : Object) : DrainState :=
  if flagOf e = NEW_INC then
    { s with roots := trieSet s.roots (keyOf e) (RootMeta.one e.vtable NEW_BIT) }
  else if flagOf e = NEW then
    { s with roots := trieSet s.roots (keyOf e) (RootMeta.zero e.vtable NEW_BIT) }
  else if flagOf e = INC then
    let m0 := (s.roots (keyOf e)).getD (RootMeta.zero e.vtable 0)
    { s with roots := trieSet s.roots (keyOf e) m0.inc }
  else if flagOf e = DEC then
    { s with deferred := s.deferred ++ [e] }
  else
    s

/-- C1: the drain dispatches on the record's two low flag bits.  `NEW_INC`
overwrites the entry with refcount 1 and the NEW flag; `NEW` overwrites with
refcount 0 and the NEW flag; `INC` increments the refcount of the existing
entry, inserting a refcount-0 entry with the record's vtable first when the
address is absent; `DEC` appends the record to the deferred buffer and leaves
every root-map entry untouched.  Entries at other addresses and the deferred
buffer are unchanged in the first three cases. -/
theorem claim_C1_drain_dispatch (s : DrainState) (e : Object) :
    (flagOf e = NEW_INC →
      (readEntry s e).roots (keyOf e) = some (RootMeta.one e.vtable NEW_BIT) ∧
      (∀ k, k ≠ keyOf e → (readEntry s e).roots k = s.roots k) ∧
      (readEntry s e).deferred = s.deferred) ∧
    (flagOf e = NEW →
      (readEntry s e).roots (keyOf e) = some (RootMeta.zero e.vtable NEW_BIT) ∧
      (∀ k, k ≠ keyOf e → (readEntry s e).roots k = s.roots k) ∧
      (readEntry s e).deferred = s.deferred) ∧
    (flagOf e = INC →
      ((readEntry s e).roots (keyOf e) =
        some (match s.roots (keyOf e) with
          | some m => ⟨(m.refcount + 1) % usizeMod, m.vtable, m.flags⟩
          | none => ⟨1, e.vtable, 0⟩)) ∧
      (∀ k, k ≠ keyOf e → (readEntry s e).roots k = s.roots k) ∧
      (readEntry s e).deferred = s.deferred) ∧
    (flagOf e = DEC →
      (readEntry s e).roots = s.roots ∧
      (readEntry s e).deferred = s.deferred ++ [e]) := by
  refine ⟨fun h => ?_, fun h => ?_, fun h => ?_, fun h => ?_⟩
  · rw [readEntry, if_pos h]
    exact ⟨by simp [trieSet], fun k hk => by simp [trieSet, hk], rfl⟩
  · have h3 : flagOf e ≠ NEW_INC := by rw [h]; decide
    rw [readEntry, if_neg h3, if_pos h]
    exact ⟨by simp [trieSet], fun k hk => by simp [trieSet, hk], rfl⟩
  · have h3 : flagOf e ≠ NEW_INC := by rw [h]; decide
    have h2 : flagOf e ≠ NEW := by rw [h]; decide
    rw [readEntry, if_neg h3, if_neg h2, if_pos h]
    refine ⟨?_, fun k hk => by simp [trieSet, hk], rfl⟩
    cases hm : s.roots (keyOf e)
    · simp only [trieSet, hm, Option.getD_none, if_pos rfl]
      rw [RootMeta.inc, RootMeta.zero]
      rw [show (0 + 1) % usizeMod = 1 by decide]
      simp
    · simp [trieSet, hm, RootMeta.inc]
  · have h3 : flagOf e ≠ NEW_INC := by rw [h]; decide
    have h2 : flagOf e ≠ NEW := by rw [h]; decide
    have h1 : flagOf e ≠ INC := by rw [h]; decide
    rw [readEntry, if_neg h3, if_neg h2, if_neg h1, if_pos h]
    exact ⟨rfl, rfl⟩

/-- C1 witness: the `NEW_INC` record `ptr = 11 = 8 | 3` lands at key 1 with
refcount 1 and the NEW flag, touching no deferred buffer; a `DEC` record for
the same address is only deferred. -/
theorem claim_C1_witness :
    ((readEntry ⟨fun _ => none, []⟩ ⟨11, 40⟩).roots 1 =
      some (RootMeta.one 40 NEW_BIT) ∧
     (readEntry ⟨fun _ => none, []⟩ ⟨11, 40⟩).deferred = ([] : List Object)) ∧
    ((readEntry ⟨fun _ => none, []⟩ ⟨8, 40⟩).roots = (fun _ => none) ∧
     (readEntry ⟨fun _ => none, []⟩ ⟨8, 40⟩).deferred = [⟨8, 40⟩]) :=
  ⟨⟨((claim_C1_drain_dispatch ⟨fun _ => none, []⟩ ⟨11, 40⟩).1 (by decide)).1,
    ((claim_C1_drain_dispatch ⟨fun _ => none, []⟩ ⟨11, 40⟩).1 (by decide)).2.2⟩,
   (claim_C1_drain_dispatch ⟨fun _ => none, []⟩ ⟨8, 40⟩).2.2.2 (by decide)⟩

/-! Minor mark phase, from `YoungHeap::mark` in `src/youngheap.rs`, and the
mutator-side record construction from `write` in `src/appthread.rs`. -/

/-- Per-entry shard-loop body of `YoungHeap::mark` (youngheap.rs lines
188-199): an entry is visited when `!unsync_is_unrooted || !is_new`; a visit
calls `RootMeta::mark_and_needs_trace`, and its Bool result decides whether
`trace` is invoked on the entry (pushing children to the worker's trace
stack).  Returns the updated entry and whether `trace` was invoked. -/
def minorMarkVisit (meta : RootMeta) : RootMeta × Bool :=
  if !meta.unsync_is_unrooted || !meta.is_new then meta.mark_and_needs_trace
  else (meta, false)

/-- appthread.rs `write` (lines 105-125): build the journal record for an
object with the given data and vtable pointers; the low flag bits are OR-ed
into the data pointer, and the TRAVERSE bit is OR-ed into the vtable word iff
the record is for a new object whose `Trace::traversible()` returned true. -/
def journalWrite (dataPtr vtablePtr : Nat) (traversible is_new : Bool)
    (flags : Nat) : Object :=
  { ptr := dataPtr ||| flags,
    vtable := if is_new && traversible then vtablePtr ||| TRAVERSE_BIT else vtablePtr }

/-- C4 counterexample: the bit the minor mark tests is bit 1 of the *flags*
word, where the root map stores the NEW flag (`NEW_BIT = TRAVERSE_BIT = 2`),
not the declared-traversibility bit cached on the *vtable* word.  A `NEW_INC`
record written for a non-traversible object (its vtable word `8` has the
TRAVERSE bit clear) produces the entry `RootMeta::one(8, NEW_BIT)`, and the
mark phase still invokes `trace` on it, although the object's declared trace
protocol reported that it contains no managed references. -/
theorem claim_C4_counterexample :
    (journalWrite 8 8 false true (NEW_BIT ||| INC_BIT)).vtable &&& TRAVERSE_BIT = 0 ∧
    (readEntry ⟨fun _ => none, []⟩ (journalWrite 8 8 false true (NEW_BIT ||| INC_BIT))).roots 1 =
      some (RootMeta.one 8 NEW_BIT) ∧
    (minorMarkVisit (RootMeta.one 8 NEW_BIT)).2 = true := by
  refine ⟨by decide, ?_, by decide⟩
  show (readEntry ⟨fun _ => none, []⟩ ⟨11, 8⟩).roots 1 = some (RootMeta.one 8 NEW_BIT)
  decide

/-- C4 (amended): for every entry with a positive refcount or with the NEW
flag clear, the visit sets the MARK bit, and `trace` is invoked iff the entry
was previously unmarked and has bit 1 of its *flags* word set — and, because
`NEW_BIT` and `TRAVERSE_BIT` are the same bit, the flag-word bit tested is
exactly the NEW flag of every drain-created entry (independent of the
traversibility bit that `write` caches on the *vtable* word of new-object
records, which is set there iff the declared trace protocol reported managed
references). -/
theorem claim_C4_amended :
    (∀ meta : RootMeta, meta.refcount ≠ 0 ∨ meta.flags &&& NEW_BIT = 0 →
      (minorMarkVisit meta).1.flags &&& MARK_BIT = MARK_BIT ∧
      ((minorMarkVisit meta).2 = true ↔
        meta.flags &&& MARK_BIT = 0 ∧ meta.flags &&& TRAVERSE_BIT ≠ 0)) ∧
    (∀ v flags : Nat,
      (RootMeta.one v NEW_BIT).flags &&& TRAVERSE_BIT ≠ 0 ∧
      (RootMeta.zero v NEW_BIT).flags &&& TRAVERSE_BIT ≠ 0 ∧
      (RootMeta.zero v 0).flags &&& TRAVERSE_BIT = 0 ∧
      ∀ dataPtr vtablePtr : Nat, ∀ trav : Bool,
        vtablePtr &&& TRAVERSE_BIT = 0 →
        ((journalWrite dataPtr vtablePtr trav true flags).vtable &&& TRAVERSE_BIT ≠ 0 ↔
          trav = true)) := by
  constructor
  · intro meta hvisit
    have hcond : (!meta.unsync_is_unrooted || !meta.is_new) = true := by
      rcases hvisit with h | h
      · simp [RootMeta.unsync_is_unrooted, h]
      · simp [RootMeta.is_new, h]
    rw [minorMarkVisit, if_pos hcond]
    rw [RootMeta.mark_and_needs_trace]
    by_cases hm : meta.flags &&& MARK_BIT = 0
    · simp only [hm, beq_self_eq_true, if_pos, Bool.true_and]
      refine ⟨?_, ?_⟩
      · show (meta.flags ||| MARK_BIT) &&& MARK_BIT = MARK_BIT
        exact lor_one_land_one meta.flags
      · simp [hm, TRAVERSE_BIT]
    · have hbe : (meta.flags &&& MARK_BIT == 0) = false := by
        simp [hm]
      simp only [hbe, Bool.false_and, if_neg, Bool.false_eq_true]
      refine ⟨?_, ?_⟩
      · show meta.flags &&& MARK_BIT = MARK_BIT
        have := land_one_eq_mod meta.flags
        unfold MARK_BIT at hm ⊢
        omega
      · simp [hm]
  · intro v flags
    refine ⟨?_, ?_, ?_, ?_⟩
    · show NEW_BIT &&& TRAVERSE_BIT ≠ 0
      decide
    · show NEW_BIT &&& TRAVERSE_BIT ≠ 0
      decide
    · show (0 : Nat) &&& TRAVERSE_BIT = 0
      decide
    intro dataPtr vtablePtr trav hv
    cases trav
    · simp [journalWrite, hv]
    · show (vtablePtr ||| 2) &&& 2 ≠ 0 ↔ true = true
      rw [lor_two_land_two]
      simp

/-- C4 amended witness: a fresh entry with refcount 1 and the NEW flag is
marked and traced; the journal record of a traversible new object carries the
TRAVERSE bit on its vtable word. -/
theorem claim_C4_amended_witness :
    ((minorMarkVisit ⟨1, 8, NEW_BIT⟩).1.flags &&& MARK_BIT = MARK_BIT ∧
      ((minorMarkVisit ⟨1, 8, NEW_BIT⟩).2 = true ↔
        (NEW_BIT &&& MARK_BIT = 0 ∧ NEW_BIT &&& TRAVERSE_BIT ≠ 0))) ∧
    ((journalWrite 8 8 true true NEW_BIT).vtable &&& TRAVERSE_BIT ≠ 0 ↔ true = true) :=
  ⟨claim_C4_amended.1 ⟨1, 8, NEW_BIT⟩ (Or.inl (by decide)),
   (claim_C4_amended.2 8 NEW_BIT).2.2.2 8 8 true (by decide)⟩

/-! Minor sweep phase, from `YoungHeap::sweep` in `src/youngheap.rs`. -/

/-- Fate of one root-map entry under the sweep's `retain_if` closure:
`dropObj` removes the entry after invoking the object's destructor through the
fat pointer rebuilt from the trie key and the entry's vtable word;
`removeEntry` removes it without running a destructor; `keepEntry` keeps the
updated entry. -/
inductive SweepResult where
  | dropObj (obj : Object)
  | removeEntry
  | keepEntry (meta : RootMeta)
deriving Repr, DecidableEq

/-- youngheap.rs `YoungHeap::sweep`, `retain_if` closure (lines 244-272): a
NEW-and-unmarked entry is dropped (its destructor runs via
`Object::from_trie_ptr(ptr, meta.vtable)`); otherwise a non-NEW entry with a
zero refcount is removed; otherwise the entry is unmarked and kept. -/
def sweepEntry (ptr : Nat) (meta : RootMeta) : SweepResult :=
  if meta.is_new_and_unmarked then
    .dropObj (Object.from_trie_ptr 8 ptr meta.vtable)
  else if !meta.is_new && meta.unsync_is_unrooted then
    .removeEntry
  else
    .keepEntry meta.unmark

/-- Map-level effect of the sweep: entries whose `retain_if` result is `false`
disappear; kept entries are replaced by their unmarked form. -/
def sweepMap (m : Nat → Option RootMeta) : Nat → Option RootMeta :=
  fun k =>
    (m k).bind fun meta =>
      match sweepEntry k meta with
      | .keepEntry meta2 => some meta2
      | _ => none

/-- C2: the sweep classifies every entry by NEW/MARK/refcount.  A NEW and
unmarked entry is dropped — destructor invoked on the object rebuilt from the
key and the entry's vtable — and removed; a non-NEW entry with refcount 0 is
removed without a destructor; every other entry is kept with only its MARK
bit cleared. -/
theorem claim_C2_sweep_classification (ptr : Nat) (meta : RootMeta) :
    (meta.flags &&& NEW_BIT ≠ 0 ∧ meta.flags &&& MARK_BIT = 0 →
      sweepEntry ptr meta = .dropObj (Object.from_trie_ptr 8 ptr meta.vtable) ∧
      sweepMap (fun k => if k = ptr then some meta else none) ptr = none) ∧
    (meta.flags &&& NEW_BIT = 0 ∧ meta.refcount = 0 →
      sweepEntry ptr meta = .removeEntry ∧
      sweepMap (fun k => if k = ptr then some meta else none) ptr = none) ∧
    (¬ (meta.flags &&& NEW_BIT ≠ 0 ∧ meta.flags &&& MARK_BIT = 0) →
      ¬ (meta.flags &&& NEW_BIT = 0 ∧ meta.refcount = 0) →
      sweepEntry ptr meta =
        .keepEntry ⟨meta.refcount, meta.vtable, meta.flags &&& MARK_MASK⟩ ∧
      sweepMap (fun k => if k = ptr then some meta else none) ptr =
        some ⟨meta.refcount, meta.vtable, meta.flags &&& MARK_MASK⟩ ∧
      (meta.flags &&& MARK_MASK) &&& MARK_BIT = 0) := by
  have hsplit : meta.is_new_and_unmarked = true ↔
      (meta.flags &&& NEW_BIT ≠ 0 ∧ meta.flags &&& MARK_BIT = 0) := by
    rw [RootMeta.is_new_and_unmarked]
    show (meta.flags &&& 3 == 2) = true ↔ _
    rw [beq_iff_eq, land_three_eq_mod]
    unfold NEW_BIT MARK_BIT
    rw [land_two_eq, land_one_eq_mod]
    omega
  refine ⟨fun h => ?_, fun h => ?_, fun h1 h2 => ?_⟩
  · have hnew : meta.is_new_and_unmarked = true := hsplit.mpr h
    have hs : sweepEntry ptr meta = .dropObj (Object.from_trie_ptr 8 ptr meta.vtable) := by
      rw [sweepEntry, if_pos hnew]
    exact ⟨hs, by simp [sweepMap, hs]⟩
  · have hnn : meta.is_new_and_unmarked = false := by
      rw [RootMeta.is_new_and_unmarked]
      show (meta.flags &&& 3 == 2) = false
      rw [beq_eq_false_iff_ne]
      rw [land_three_eq_mod]
      have h2 := land_two_eq meta.flags
      unfold NEW_BIT at h
      omega
    have hcond : (!meta.is_new && meta.unsync_is_unrooted) = true := by
      rw [RootMeta.is_new, RootMeta.unsync_is_unrooted]
      simp [h.1, h.2]
    have hs : sweepEntry ptr meta = .removeEntry := by
      rw [sweepEntry, if_neg (by simp [hnn]), if_pos hcond]
    exact ⟨hs, by simp [sweepMap, hs]⟩
  · have hnn : meta.is_new_and_unmarked = false := by
      rcases Bool.eq_false_or_eq_true meta.is_new_and_unmarked with ht | hf
      · exact absurd (hsplit.mp ht) h1
      · exact hf
    have hcond : (!meta.is_new && meta.unsync_is_unrooted) = false := by
      rw [RootMeta.is_new, RootMeta.unsync_is_unrooted]
      rcases Nat.eq_zero_or_pos (meta.flags &&& NEW_BIT) with hz | hp
      · have : meta.refcount ≠ 0 := fun hr => h2 ⟨hz, hr⟩
        simp [this]
      · simp [Nat.pos_iff_ne_zero.mp hp]
    have hs : sweepEntry ptr meta =
        .keepEntry ⟨meta.refcount, meta.vtable, meta.flags &&& MARK_MASK⟩ := by
      rw [sweepEntry, if_neg (by simp [hnn]), if_neg (by simp [hcond])]
      rfl
    refine ⟨hs, ?_, land_mark_mask_land_one (meta.flags)⟩
    simp [sweepMap, hs]

/-- C2 witness: a NEW unmarked entry at key 1 is dropped with its destructor
object; a marked NEW entry is kept with the MARK bit cleared. -/
theorem claim_C2_witness :
    (sweepEntry 1 ⟨0, 40, NEW_BIT⟩ =
      .dropObj (Object.from_trie_ptr 8 1 40) ∧
     sweepMap (fun k => if k = 1 then some ⟨0, 40, NEW_BIT⟩ else none) 1 = none) ∧
    (sweepEntry 1 ⟨1, 40, 3⟩ = .keepEntry ⟨1, 40, 3 &&& MARK_MASK⟩ ∧
     sweepMap (fun k => if k = 1 then some ⟨1, 40, 3⟩ else none) 1 =
       some ⟨1, 40, 3 &&& MARK_MASK⟩ ∧
     ((3 : Nat) &&& MARK_MASK) &&& MARK_BIT = 0) :=
  ⟨(claim_C2_sweep_classification 1 ⟨0, 40, NEW_BIT⟩).1 (by decide),
   (claim_C2_sweep_classification 1 ⟨1, 40, 3⟩).2.2 (by decide) (by decide)⟩

/-! Journal SPSC queue, from `src/journal.rs`.  The linked chain of buffers is
modelled as a list: index 0 is the receiver's head buffer, the last element is
the sender's tail buffer, and each buffer's `next` pointer points to the
following list element.  A buffer's `data` is the prefix of slots the sender
has written (so the producer counter `tail` equals `data.length`), `hd` is the
consumer counter `head`, and `tailMax` is `tail_max`. -/

/-- journal.rs `Buffer<T>` (its observable fields; `capacity` of individual
buffers is carried on the queue since every buffer in a chain shares it). -/
structure JBuffer (α : Type) where
  data : List α
  hd : Nat
  tailMax : Nat
deriving Repr, DecidableEq

/-- journal.rs `BufferQueue<T>` with its `head`/`tail` pointers flattened into
the buffer list, the sender-hang-up flag `hup`, and the rounded buffer
capacity used by `Buffer::new(self.capacity)` for successors. -/
structure JQueue (α : Type) where
  bufs : List (JBuffer α)
  hup : Bool
  capacity : Nat
deriving Repr, DecidableEq

/-- Rust `usize::next_power_of_two`: the least power of two not below `n`
(with 0 and 1 both rounding to 1). -/
def nextPow2 (n : Nat) : Nat := 2 ^ Nat.clog 2 n

/-- journal.rs `make_journal` via `BufferQueue::new` and `Buffer::new`: a
single empty buffer whose `tail_max` is the capacity rounded up to a power of
two. -/
def make_journal (α : Type) (capacity : Nat) : JQueue α :=
  { bufs := [⟨[], 0, nextPow2 capacity⟩], hup := false, capacity := nextPow2 capacity }

/-- journal.rs `Buffer::write` threaded along the chain to the tail buffer (the
`Sender::send` path, lines 173-179 and 286-305): if the tail buffer has room
(`tail < tail_max`) the item is appended there; otherwise a fresh buffer of
the same capacity is allocated, the item written into it, and the new buffer
published as `next` (becoming the new tail). -/
def sendBufs {α : Type} (cap : Nat) : List (JBuffer α) → α → List (JBuffer α)
  | [], v => [⟨[v], 0, cap⟩]
  | [b], v =>
    if b.data.length < b.tailMax then [⟨b.data ++ [v], b.hd, b.tailMax⟩]
    else [b, ⟨[v], 0, cap⟩]
  | b :: b2 :: rest, v => b :: sendBufs cap (b2 :: rest) v

/-- journal.rs `Sender::send`. -/
def JQueue.send {α : Type} (q : JQueue α) (v : α) : JQueue α :=
  { q with bufs := sendBufs q.capacity q.bufs v }

/-- journal.rs `RecvResult` together with the `Ok` value of `try_recv`. -/
inductive RecvResult (α : Type) where
  | ok (v : α)
  | empty
  | disconnected
deriving Repr, DecidableEq

/-- journal.rs `Receiver::try_recv` (lines 194-230), with `Buffer::try_read`,
`head_is_completed` (`tail_max == tail`), `next_head` and `replace_head`
inlined: read from the head buffer if it has an unread slot; otherwise, if the
head buffer is completed and a successor exists, unlink the head and peek at
the successor; with no successor, report `Disconnected` exactly when the
sender has hung up, else `Empty`. -/
def JQueue.try_recv {α : Type} (q : JQueue α) : RecvResult α × JQueue α :=
  match q.bufs with
  | [] => (.empty, q)
  | b :: rest =>
    if h : b.hd < b.data.length then
      (.ok (b.data.get ⟨b.hd, h⟩), { q with bufs := ⟨b.data, b.hd + 1, b.tailMax⟩ :: rest })
    else if b.tailMax = b.data.length then
      match rest with
      | b2 :: rest2 =>
        if h2 : b2.hd < b2.data.length then
          (.ok (b2.data.get ⟨b2.hd, h2⟩),
           { q with bufs := ⟨b2.data, b2.hd + 1, b2.tailMax⟩ :: rest2 })
        else (.empty, { q with bufs := b2 :: rest2 })
      | [] => if q.hup then (.disconnected, q) else (.empty, q)
    else (.empty, q)

/-- journal.rs `Buffer::mark_completed` applied to the tail buffer:
`tail_max := tail`. -/
def markLastCompleted {α : Type} : List (JBuffer α) → List (JBuffer α)
  | [] => []
  | [b] => [⟨b.data, b.hd, b.data.length⟩]
  | b :: b2 :: rest => b :: markLastCompleted (b2 :: rest)

/-- journal.rs `Drop for Sender` (lines 183-189): mark the tail buffer
completed and set the hang-up flag. -/
def JQueue.dropSender {α : Type} (q : JQueue α) : JQueue α :=
  { q with bufs := markLastCompleted q.bufs, hup := true }

/-- Values delivered by `n` successive `try_recv` calls (non-`Ok` results are
skipped, i.e. `Empty` is treated as retriable). -/
def recvVals {α : Type} (q : JQueue α) : Nat → List α
  | 0 => []
  | n + 1 =>
    match q.try_recv with
    | (.ok v, q2) => v :: recvVals q2 n
    | (_, q2) => recvVals q2 n

/-- Queue state after `n` successive `try_recv` calls. -/
def recvQueue {α : Type} (q : JQueue α) : Nat → JQueue α
  | 0 => q
  | n + 1 => recvQueue q.try_recv.2 n

/-- Send a whole sequence. -/
def sendAll {α : Type} (q : JQueue α) (xs : List α) : JQueue α :=
  xs.foldl JQueue.send q

/-- Unconsumed values of a buffer chain, head buffer first. -/
def pendingBufs {α : Type} : List (JBuffer α) → List α
  | [] => []
  | b :: rest => b.data.drop b.hd ++ pendingBufs rest

/-- Unconsumed values of the queue. -/
def JQueue.pending {α : Type} (q : JQueue α) : List α := pendingBufs q.bufs

/-- Well-formedness of the non-head buffers of a chain: the consumer has not
touched them (`hd = 0`), each was created holding its first item, counters are
in range, and every buffer that already has a successor is full. -/
def tailBufsWF {α : Type} : List (JBuffer α) → Prop
  | [] => True
  | b :: rest =>
    b.hd = 0 ∧ 1 ≤ b.data.length ∧ b.data.length ≤ b.tailMax ∧
      (rest = [] ∨ b.data.length = b.tailMax) ∧ tailBufsWF rest

/-- Well-formedness of a queue: positive capacity, a non-empty chain, counters
of the head buffer in range, every non-tail buffer full, and the non-head
buffers well formed. -/
def queueWF {α : Type} (q : JQueue α) : Prop :=
  1 ≤ q.capacity ∧
  match q.bufs with
  | [] => False
  | b :: rest =>
    b.hd ≤ b.data.length ∧ b.data.length ≤ b.tailMax ∧
      (rest = [] ∨ b.data.length = b.tailMax) ∧ tailBufsWF rest

/-- The tail buffer has been marked completed (`tail_max = tail`), as
`Drop for Sender` leaves it. -/
def lastCompleted {α : Type} : List (JBuffer α) → Prop
  | [] => True
  | [b] => b.tailMax = b.data.length
  | _ :: b2 :: rest => lastCompleted (b2 :: rest)

theorem make_journal_wf (α : Type) (cap : Nat) :
    queueWF (make_journal α cap) ∧ (make_journal α cap).pending = [] := by
  refine ⟨⟨Nat.one_le_two_pow, ?_⟩, rfl⟩
  exact ⟨Nat.le_refl 0, Nat.zero_le _, Or.inl rfl, trivial⟩

theorem sendBufs_tail_spec {α : Type} (cap : Nat) (v : α) (hcap : 1 ≤ cap) :
    ∀ bufs : List (JBuffer α), bufs ≠ [] → tailBufsWF bufs →
      sendBufs cap bufs v ≠ [] ∧ tailBufsWF (sendBufs cap bufs v) ∧
      pendingBufs (sendBufs cap bufs v) = pendingBufs bufs ++ [v] := by
  intro bufs
  induction bufs with
  | nil => intro hne; exact absurd rfl hne
  | cons b rest ih =>
    intro _ hwf
    cases rest with
    | nil =>
      obtain ⟨hhd, hlen, hmax, _, _⟩ := hwf
      by_cases hroom : b.data.length < b.tailMax
      · rw [show sendBufs cap [b] v = [⟨b.data ++ [v], b.hd, b.tailMax⟩] from by
          rw [sendBufs, if_pos hroom]]
        refine ⟨by simp, ⟨hhd, by simp, by simp; omega, Or.inl rfl, trivial⟩, ?_⟩
        show (b.data ++ [v]).drop b.hd ++ [] = (b.data.drop b.hd ++ []) ++ [v]
        rw [List.drop_append_of_le_length (hhd ▸ Nat.zero_le _)]
        simp
      · rw [show sendBufs cap [b] v = [b, ⟨[v], 0, cap⟩] from by
          rw [sendBufs, if_neg hroom]]
        refine ⟨by simp, ?_, ?_⟩
        · exact ⟨hhd, hlen, hmax, Or.inr (by omega),
            rfl, by simp, by simpa using hcap, Or.inl rfl, trivial⟩
        · show b.data.drop b.hd ++ ([v].drop 0 ++ []) = (b.data.drop b.hd ++ []) ++ [v]
          simp
    | cons b2 rest2 =>
      obtain ⟨hhd, hlen, hmax, hfull, hwfr⟩ := hwf
      obtain ⟨hne2, hwf2, hp2⟩ := ih (by simp) hwfr
      rw [show sendBufs cap (b :: b2 :: rest2) v = b :: sendBufs cap (b2 :: rest2) v from rfl]
      refine ⟨by simp, ?_, ?_⟩
      · have hfull2 : b.data.length = b.tailMax := by
          rcases hfull with h | h
          · exact absurd h (by simp)
          · exact h
        exact ⟨hhd, hlen, hmax, Or.inr hfull2, hwf2⟩
      · show b.data.drop b.hd ++ pendingBufs (sendBufs cap (b2 :: rest2) v) =
          (b.data.drop b.hd ++ pendingBufs (b2 :: rest2)) ++ [v]
        rw [hp2, List.append_assoc]

theorem send_spec {α : Type} (q : JQueue α) (v : α) (hwf : queueWF q) :
    queueWF (q.send v) ∧ (q.send v).pending = q.pending ++ [v] ∧
    (q.send v).hup = q.hup ∧ (q.send v).capacity = q.capacity := by
  obtain ⟨bufs, hup, cap⟩ := q
  obtain ⟨hcap, hbufs⟩ := hwf
  cases bufs with
  | nil => exact absurd hbufs (by simp)
  | cons b rest =>
    obtain ⟨hhd, hmax, hfull, hwfr⟩ := hbufs
    cases rest with
    | nil =>
      by_cases hroom : b.data.length < b.tailMax
      · have hsend : (JQueue.mk [b] hup cap).send v =
            ⟨[⟨b.data ++ [v], b.hd, b.tailMax⟩], hup, cap⟩ := by
          show JQueue.mk (sendBufs cap [b] v) hup cap = _
          rw [sendBufs, if_pos hroom]
        rw [hsend]
        refine ⟨⟨hcap, ?_⟩, ?_, rfl, rfl⟩
        · exact ⟨by simp; omega, by simp; omega, Or.inl rfl, trivial⟩
        · show (b.data ++ [v]).drop b.hd ++ [] = (b.data.drop b.hd ++ []) ++ [v]
          rw [List.drop_append_of_le_length hhd]
          simp
      · have hsend : (JQueue.mk [b] hup cap).send v = ⟨[b, ⟨[v], 0, cap⟩], hup, cap⟩ := by
          show JQueue.mk (sendBufs cap [b] v) hup cap = _
          rw [sendBufs, if_neg hroom]
        rw [hsend]
        refine ⟨⟨hcap, ?_⟩, ?_, rfl, rfl⟩
        · exact ⟨hhd, hmax, Or.inr (by omega),
            rfl, by simp, by simpa using hcap, Or.inl rfl, trivial⟩
        · show b.data.drop b.hd ++ ([v].drop 0 ++ []) = (b.data.drop b.hd ++ []) ++ [v]
          simp
    | cons b2 rest2 =>
      obtain ⟨hne2, hwf2, hp2⟩ := sendBufs_tail_spec cap v hcap (b2 :: rest2) (by simp) hwfr
      have hfull2 : b.data.length = b.tailMax := by
        rcases hfull with h | h
        · exact absurd h (by simp)
        · exact h
      have hsend : (JQueue.mk (b :: b2 :: rest2) hup cap).send v =
          ⟨b :: sendBufs cap (b2 :: rest2) v, hup, cap⟩ := rfl
      rw [hsend]
      refine ⟨⟨hcap, ?_⟩, ?_, rfl, rfl⟩
      · cases hs : sendBufs cap (b2 :: rest2) v with
        | nil => exact absurd hs hne2
        | cons c cs =>
          rw [hs] at hwf2
          exact ⟨hhd, hmax, Or.inr hfull2, hwf2⟩
      · show b.data.drop b.hd ++ pendingBufs (sendBufs cap (b2 :: rest2) v) =
          (b.data.drop b.hd ++ pendingBufs (b2 :: rest2)) ++ [v]
        rw [hp2, List.append_assoc]

theorem sendAll_spec {α : Type} :
    ∀ (xs : List α) (q : JQueue α), queueWF q →
      queueWF (sendAll q xs) ∧ (sendAll q xs).pending = q.pending ++ xs ∧
      (sendAll q xs).hup = q.hup ∧ (sendAll q xs).capacity = q.capacity := by
  intro xs
  induction xs with
  | nil => intro q hwf; exact ⟨hwf, by simp [sendAll], rfl, rfl⟩
  | cons v vs ih =>
    intro q hwf
    obtain ⟨hwf1, hp1, hh1, hc1⟩ := send_spec q v hwf
    obtain ⟨hwf2, hp2, hh2, hc2⟩ := ih (q.send v) hwf1
    have hstep : sendAll q (v :: vs) = sendAll (q.send v) vs := rfl
    rw [hstep]
    exact ⟨hwf2, by rw [hp2, hp1]; simp, by rw [hh2, hh1], by rw [hc2, hc1]⟩

theorem try_recv_cons {α : Type} (q : JQueue α) (v : α) (vs : List α)
    (hwf : queueWF q) (hp : q.pending = v :: vs) :
    ∃ q2, q.try_recv = (.ok v, q2) ∧ queueWF q2 ∧ q2.pending = vs ∧
      q2.hup = q.hup ∧ (lastCompleted q.bufs → lastCompleted q2.bufs) := by
  obtain ⟨bufs, hup, cap⟩ := q
  obtain ⟨hcap, hbufs⟩ := hwf
  cases bufs with
  | nil => exact absurd hbufs (by simp)
  | cons b rest =>
    obtain ⟨hhd, hmax, hfull, hwfr⟩ := hbufs
    by_cases hlt : b.hd < b.data.length
    · have hpp : b.data.get ⟨b.hd, hlt⟩ :: (b.data.drop (b.hd + 1) ++ pendingBufs rest) =
          v :: vs := by
        have hthis : b.data.drop b.hd ++ pendingBufs rest = v :: vs := hp
        rw [List.drop_eq_get_cons hlt, List.cons_append] at hthis
        exact hthis
      have hv : b.data.get ⟨b.hd, hlt⟩ = v := (List.cons_eq_cons.mp hpp).1
      have hrest : b.data.drop (b.hd + 1) ++ pendingBufs rest = vs :=
        (List.cons_eq_cons.mp hpp).2
      refine ⟨⟨⟨b.data, b.hd + 1, b.tailMax⟩ :: rest, hup, cap⟩, ?_, ⟨hcap, ?_⟩, ?_, rfl, ?_⟩
      · show (if h : b.hd < b.data.length then
            ((.ok (b.data.get ⟨b.hd, h⟩), ⟨⟨b.data, b.hd + 1, b.tailMax⟩ :: rest, hup, cap⟩) :
              RecvResult α × JQueue α)
          else _) = _
        rw [dif_pos hlt, hv]
      · exact ⟨by simp; omega, by simp; omega, by simpa using hfull, hwfr⟩
      · exact hrest
      · intro hlc
        cases rest with
        | nil => exact hlc
        | cons c cs => exact hlc
    · have hdrop : b.data.drop b.hd = [] := List.drop_eq_nil_of_le (by omega)
      have hprest : pendingBufs rest = v :: vs := by
        have hthis : b.data.drop b.hd ++ pendingBufs rest = v :: vs := hp
        rw [hdrop, List.nil_append] at hthis
        exact hthis
      cases rest with
      | nil => simp [pendingBufs] at hprest
      | cons b2 rest2 =>
        obtain ⟨h20, h21, h2max, h2full, hwfr2⟩ := hwfr
        have hfull2 : b.data.length = b.tailMax := by
          rcases hfull with h | h
          · exact absurd h (by simp)
          · exact h
        have h2lt : b2.hd < b2.data.length := by omega
        have hpp : b2.data.get ⟨b2.hd, h2lt⟩ :: (b2.data.drop (b2.hd + 1) ++ pendingBufs rest2) =
            v :: vs := by
          have hthis : b2.data.drop b2.hd ++ pendingBufs rest2 = v :: vs := hprest
          rw [List.drop_eq_get_cons h2lt, List.cons_append] at hthis
          exact hthis
        have hv : b2.data.get ⟨b2.hd, h2lt⟩ = v := (List.cons_eq_cons.mp hpp).1
        have hrest : b2.data.drop (b2.hd + 1) ++ pendingBufs rest2 = vs :=
          (List.cons_eq_cons.mp hpp).2
        refine ⟨⟨⟨b2.data, b2.hd + 1, b2.tailMax⟩ :: rest2, hup, cap⟩, ?_, ⟨hcap, ?_⟩, ?_, rfl, ?_⟩
        · show (if h : b.hd < b.data.length then
              ((.ok (b.data.get ⟨b.hd, h⟩),
                ⟨⟨b.data, b.hd + 1, b.tailMax⟩ :: b2 :: rest2, hup, cap⟩) :
                RecvResult α × JQueue α)
            else if b.tailMax = b.data.length then
              if h2 : b2.hd < b2.data.length then
                (.ok (b2.data.get ⟨b2.hd, h2⟩),
                 ⟨⟨b2.data, b2.hd + 1, b2.tailMax⟩ :: rest2, hup, cap⟩)
              else (.empty, ⟨b2 :: rest2, hup, cap⟩)
            else (.empty, ⟨b :: b2 :: rest2, hup, cap⟩)) = _
          rw [dif_neg hlt, if_pos hfull2.symm, dif_pos h2lt, hv]
        · exact ⟨by simp; omega, by simp; omega, by simpa using h2full, hwfr2⟩
        · exact hrest
        · intro hlc
          have hlc2 : lastCompleted (b2 :: rest2) := hlc
          cases rest2 with
          | nil => exact hlc2
          | cons c cs => exact hlc2

theorem tailBufs_pending_nil {α : Type} :
    ∀ rest : List (JBuffer α), tailBufsWF rest → pendingBufs rest = [] → rest = [] := by
  intro rest hwf hp
  cases rest with
  | nil => rfl
  | cons b2 rest2 =>
    obtain ⟨h20, h21, _, _, _⟩ := hwf
    rw [show pendingBufs (b2 :: rest2) = b2.data.drop b2.hd ++ pendingBufs rest2 from rfl,
      h20, List.drop_zero] at hp
    have := List.append_eq_nil.mp hp
    rw [this.1] at h21
    simp at h21

theorem try_recv_disconnected_of_drained {α : Type} (q : JQueue α)
    (hwf : queueWF q) (hlc : lastCompleted q.bufs) (hhup : q.hup = true)
    (hp : q.pending = []) :
    q.try_recv.1 = .disconnected := by
  obtain ⟨bufs, hup, cap⟩ := q
  obtain ⟨hcap, hbufs⟩ := hwf
  cases bufs with
  | nil => exact absurd hbufs (by simp)
  | cons b rest =>
    obtain ⟨hhd, hmax, hfull, hwfr⟩ := hbufs
    have hp2 : b.data.drop b.hd ++ pendingBufs rest = [] := hp
    have hdrop := (List.append_eq_nil.mp hp2).1
    have hprest := (List.append_eq_nil.mp hp2).2
    have hrest : rest = [] := tailBufs_pending_nil rest hwfr hprest
    subst hrest
    have hge : ¬ b.hd < b.data.length := by
      have := List.drop_eq_nil_iff_le.mp hdrop
      omega
    have hcompl : b.tailMax = b.data.length := hlc
    have hhup2 : hup = true := hhup
    subst hhup2
    show (JQueue.try_recv ⟨[b], true, cap⟩).1 = RecvResult.disconnected
    rw [show JQueue.try_recv ⟨[b], true, cap⟩ =
        (if h : b.hd < b.data.length then
          ((.ok (b.data.get ⟨b.hd, h⟩), ⟨[⟨b.data, b.hd + 1, b.tailMax⟩], true, cap⟩) :
            RecvResult α × JQueue α)
        else if b.tailMax = b.data.length then
          (if (true : Bool) then (.disconnected, ⟨[b], true, cap⟩)
           else (.empty, ⟨[b], true, cap⟩))
        else (.empty, ⟨[b], true, cap⟩)) from rfl]
    rw [dif_neg hge, if_pos hcompl, if_pos rfl]

theorem markLast_tail_spec {α : Type} :
    ∀ bufs : List (JBuffer α), bufs ≠ [] → tailBufsWF bufs →
      markLastCompleted bufs ≠ [] ∧ tailBufsWF (markLastCompleted bufs) ∧
      pendingBufs (markLastCompleted bufs) = pendingBufs bufs ∧
      lastCompleted (markLastCompleted bufs) := by
  intro bufs
  induction bufs with
  | nil => intro hne; exact absurd rfl hne
  | cons b rest ih =>
    intro _ hwf
    cases rest with
    | nil =>
      obtain ⟨hhd, hlen, hmax, _, _⟩ := hwf
      rw [show markLastCompleted [b] = [⟨b.data, b.hd, b.data.length⟩] from rfl]
      exact ⟨by simp, ⟨hhd, hlen, Nat.le_refl _, Or.inl rfl, trivial⟩, rfl, rfl⟩
    | cons b2 rest2 =>
      obtain ⟨hhd, hlen, hmax, hfull, hwfr⟩ := hwf
      obtain ⟨hne2, hwf2, hp2, hlc2⟩ := ih (by simp) hwfr
      rw [show markLastCompleted (b :: b2 :: rest2) = b :: markLastCompleted (b2 :: rest2)
        from rfl]
      have hfull2 : b.data.length = b.tailMax := by
        rcases hfull with h | h
        · exact absurd h (by simp)
        · exact h
      refine ⟨by simp, ⟨hhd, hlen, hmax, Or.inr hfull2, hwf2⟩, ?_, ?_⟩
      · show b.data.drop b.hd ++ pendingBufs (markLastCompleted (b2 :: rest2)) =
          b.data.drop b.hd ++ pendingBufs (b2 :: rest2)
        rw [hp2]
      · cases hm : markLastCompleted (b2 :: rest2) with
        | nil => exact absurd hm hne2
        | cons c cs =>
          show lastCompleted (c :: cs)
          rw [← hm]
          exact hlc2

theorem dropSender_spec {α : Type} (q : JQueue α) (hwf : queueWF q) :
    queueWF q.dropSender ∧ q.dropSender.pending = q.pending ∧
    lastCompleted q.dropSender.bufs ∧ q.dropSender.hup = true := by
  obtain ⟨bufs, hup, cap⟩ := q
  obtain ⟨hcap, hbufs⟩ := hwf
  cases bufs with
  | nil => exact absurd hbufs (by simp)
  | cons b rest =>
    obtain ⟨hhd, hmax, hfull, hwfr⟩ := hbufs
    cases rest with
    | nil =>
      refine ⟨⟨hcap, ?_⟩, rfl, ?_, rfl⟩
      · exact ⟨hhd, Nat.le_refl _, Or.inl rfl, trivial⟩
      · show lastCompleted [(⟨b.data, b.hd, b.data.length⟩ : JBuffer α)]
        rfl
    | cons b2 rest2 =>
      obtain ⟨hne2, hwf2, hp2, hlc2⟩ := markLast_tail_spec (b2 :: rest2) (by simp) hwfr
      have hfull2 : b.data.length = b.tailMax := by
        rcases hfull with h | h
        · exact absurd h (by simp)
        · exact h
      refine ⟨⟨hcap, ?_⟩, ?_, ?_, rfl⟩
      · show b.hd ≤ b.data.length ∧ b.data.length ≤ b.tailMax ∧
          (markLastCompleted (b2 :: rest2) = [] ∨ b.data.length = b.tailMax) ∧
          tailBufsWF (markLastCompleted (b2 :: rest2))
        exact ⟨hhd, hmax, Or.inr hfull2, hwf2⟩
      · show b.data.drop b.hd ++ pendingBufs (markLastCompleted (b2 :: rest2)) =
          b.data.drop b.hd ++ pendingBufs (b2 :: rest2)
        rw [hp2]
      · show lastCompleted (b :: markLastCompleted (b2 :: rest2))
        cases hm : markLastCompleted (b2 :: rest2) with
        | nil => exact absurd hm hne2
        | cons c cs =>
          show lastCompleted (c :: cs)
          rw [← hm]
          exact hlc2

theorem recv_drain {α : Type} :
    ∀ (xs : List α) (q : JQueue α), queueWF q → q.pending = xs →
      recvVals q xs.length = xs ∧ queueWF (recvQueue q xs.length) ∧
      (recvQueue q xs.length).pending = [] ∧
      (recvQueue q xs.length).hup = q.hup ∧
      (lastCompleted q.bufs → lastCompleted (recvQueue q xs.length).bufs) := by
  intro xs
  induction xs with
  | nil => intro q hwf hp; exact ⟨rfl, hwf, hp, rfl, fun h => h⟩
  | cons v vs ih =>
    intro q hwf hp
    obtain ⟨q2, hrecv, hwf2, hp2, hhup2, hlc2⟩ := try_recv_cons q v vs hwf hp
    obtain ⟨ihv, ihwf, ihp, ihh, ihlc⟩ := ih q2 hwf2 hp2
    have h2 : q.try_recv.2 = q2 := by rw [hrecv]
    refine ⟨?_, ?_, ?_, ?_, ?_⟩
    · show (match q.try_recv with
        | (.ok v, q2) => v :: recvVals q2 vs.length
        | (_, q2) => recvVals q2 vs.length) = v :: vs
      rw [hrecv]
      show v :: recvVals q2 vs.length = v :: vs
      rw [ihv]
    · show queueWF (recvQueue q.try_recv.2 vs.length)
      rw [h2]
      exact ihwf
    · show (recvQueue q.try_recv.2 vs.length).pending = []
      rw [h2]
      exact ihp
    · show (recvQueue q.try_recv.2 vs.length).hup = q.hup
      rw [h2, ihh, hhup2]
    · intro hlc
      show lastCompleted (recvQueue q.try_recv.2 vs.length).bufs
      rw [h2]
      exact ihlc (hlc2 hlc)

/-- C6: for every requested capacity and every sequence of values sent on a
fresh journal, reading back with `try_recv` (treating `Empty` as retriable)
yields exactly that sequence, in order, each value exactly once — including
across full-buffer boundaries, where `send` writes into a freshly allocated
successor buffer published via `next`. -/
theorem claim_C6_roundtrip (α : Type) (cap : Nat) (xs : List α) :
    recvVals (sendAll (make_journal α cap) xs) xs.length = xs := by
  obtain ⟨hwf0, hp0⟩ := make_journal_wf α cap
  obtain ⟨hwf, hp, _, _⟩ := sendAll_spec xs (make_journal α cap) hwf0
  exact (recv_drain xs _ hwf (by rw [hp, hp0]; simp)).1

/-- C7: `try_recv` reports `Disconnected` only when the sender has hung up,
the head buffer holds no unread item, and no successor buffer exists; and if
the sender is dropped with values still buffered, the receiver yields every
buffered value (in order) before the next call first observes `Disconnected`. -/
theorem claim_C7_disconnected :
    (∀ (α : Type) (q : JQueue α) (b : JBuffer α) (rest : List (JBuffer α)),
      q.bufs = b :: rest → q.try_recv.1 = .disconnected →
      q.hup = true ∧ b.data.length ≤ b.hd ∧ rest = []) ∧
    (∀ (α : Type) (cap : Nat) (xs : List α),
      recvVals (sendAll (make_journal α cap) xs).dropSender xs.length = xs ∧
      ((recvQueue (sendAll (make_journal α cap) xs).dropSender xs.length).try_recv).1 =
        .disconnected) := by
  constructor
  · intro α q b rest hbufs hdisc
    obtain ⟨bufs, hup, cap⟩ := q
    cases hbufs
    rw [show JQueue.try_recv ⟨b :: rest, hup, cap⟩ =
        (if h : b.hd < b.data.length then
          (.ok (b.data.get ⟨b.hd, h⟩), ⟨⟨b.data, b.hd + 1, b.tailMax⟩ :: rest, hup, cap⟩)
        else if b.tailMax = b.data.length then
          match rest with
          | b2 :: rest2 =>
            if h2 : b2.hd < b2.data.length then
              (.ok (b2.data.get ⟨b2.hd, h2⟩), ⟨⟨b2.data, b2.hd + 1, b2.tailMax⟩ :: rest2, hup, cap⟩)
            else (.empty, ⟨b2 :: rest2, hup, cap⟩)
          | [] => if hup then (.disconnected, ⟨b :: rest, hup, cap⟩)
                  else (.empty, ⟨b :: rest, hup, cap⟩)
        else (.empty, ⟨b :: rest, hup, cap⟩)) from rfl] at hdisc
    by_cases hlt : b.hd < b.data.length
    · rw [dif_pos hlt] at hdisc
      exact absurd hdisc (by simp)
    · rw [dif_neg hlt] at hdisc
      by_cases hcompl : b.tailMax = b.data.length
      · rw [if_pos hcompl] at hdisc
        cases rest with
        | nil =>
          cases hup with
          | true => exact ⟨rfl, by omega, rfl⟩
          | false => exact absurd hdisc (by simp)
        | cons b2 rest2 =>
          have hdisc2 : (if h2 : b2.hd < b2.data.length then
              ((.ok (b2.data.get ⟨b2.hd, h2⟩),
                ⟨⟨b2.data, b2.hd + 1, b2.tailMax⟩ :: rest2, hup, cap⟩) :
                RecvResult α × JQueue α)
            else (.empty, ⟨b2 :: rest2, hup, cap⟩)).1 = RecvResult.disconnected := hdisc
          by_cases h2 : b2.hd < b2.data.length
          · rw [dif_pos h2] at hdisc2
            exact absurd hdisc2 (by simp)
          · rw [dif_neg h2] at hdisc2
            exact absurd hdisc2 (by simp)
      · rw [if_neg hcompl] at hdisc
        exact absurd hdisc (by simp)
  · intro α cap xs
    obtain ⟨hwf0, hp0⟩ := make_journal_wf α cap
    obtain ⟨hwf1, hp1, _, _⟩ := sendAll_spec xs (make_journal α cap) hwf0
    obtain ⟨hwf2, hp2, hlc2, hhup2⟩ := dropSender_spec (sendAll (make_journal α cap) xs) hwf1
    have hpend : (sendAll (make_journal α cap) xs).dropSender.pending = xs := by
      rw [hp2, hp1, hp0]
      simp
    obtain ⟨hv, hwf3, hp3, hh3, hlc3⟩ :=
      recv_drain xs ((sendAll (make_journal α cap) xs).dropSender) hwf2 hpend
    refine ⟨hv, ?_⟩
    exact try_recv_disconnected_of_drained _ hwf3 (hlc3 hlc2) (by rw [hh3, hhup2]) hp3

/-- C7 witness: a literal hung-up queue with an exhausted head buffer and no
successor reports `Disconnected`, and the characterization recovers its state. -/
theorem claim_C7_witness :
    (JQueue.mk [JBuffer.mk ([] : List Nat) 0 0] true 1).hup = true ∧
    (JBuffer.mk ([] : List Nat) 0 0).data.length ≤ (JBuffer.mk ([] : List Nat) 0 0).hd ∧
    ([] : List (JBuffer Nat)) = [] :=
  claim_C7_disconnected.1 Nat ⟨[⟨[], 0, 0⟩], true, 1⟩ ⟨[], 0, 0⟩ [] rfl (by decide)

/-! Whole-cycle model for the merge-deferred safety claim: drain a journal's
records from an empty root map, run the minor mark and sweep, then apply the
deferred decrements (`YoungHeap::merge_deferred`, youngheap.rs lines
287-320). -/

/-- Record carries an increment: flag bits `INC` or `NEW_INC`. -/
def isIncRec (e : Object) : Bool := flagOf e == INC || flagOf e == NEW_INC

/-- Record is a deferred decrement: flag bits `DEC`. -/
def isDecRec (e : Object) : Bool := flagOf e == DEC

/-- Record announces a new object: flag bits `NEW` or `NEW_INC`. -/
def isNewRec (e : Object) : Bool := flagOf e == NEW || flagOf e == NEW_INC

/-- Empty collector state: empty root trie, empty deferred buffer. -/
def emptyDrain : DrainState := ⟨fun _ => none, []⟩

/-- Drain a record sequence in journal (program) order. -/
def drain (recs : List Object) : DrainState := recs.foldl readEntry emptyDrain

/-- Number of increment records for trie key `k`. -/
def cInc (recs : List Object) (k : Nat) : Nat :=
  recs.countP fun e => isIncRec e && keyOf e == k

/-- Number of decrement records for trie key `k`. -/
def cDec (recs : List Object) (k : Nat) : Nat :=
  recs.countP fun e => isDecRec e && keyOf e == k

/-- Map-level effect of `YoungHeap::mark` (youngheap.rs lines 173-220): every
entry satisfying the root condition `!unsync_is_unrooted || !is_new` goes
through `mark_and_needs_trace`; in addition the trace-stack walk (lines
203-213) calls `mark_and_needs_trace` on the entries reached through the user
`Trace` implementations, which only ORs in the MARK bit.  The set of entries
reached that way depends on user code and is abstracted by the arbitrary
predicate `extra`. -/
def markMap (extra : Nat → Bool) (m : Nat → Option RootMeta) :
    Nat → Option RootMeta :=
  fun k =>
    (m k).map fun meta =>
      let meta1 := (minorMarkVisit meta).1
      if extra k then { meta1 with flags := meta1.flags ||| MARK_BIT } else meta1

/-- youngheap.rs `YoungHeap::merge_deferred` (lines 300-313) fused with the
claim's per-step safety condition: each deferred record must find its entry
(`none` is the source's `unreachable!()` abort branch) with a refcount of at
least 1 (so the wrapping `fetch_sub` of `RootMeta::dec` cannot underflow);
the decrement is then applied and the rest of the buffer processed. -/
def mergeOk (m : Nat → Option RootMeta) : List Object → Bool
  | [] => true
  | e :: rest =>
    match m (keyOf e) with
    | none => false
    | some meta =>
      decide (1 ≤ meta.refcount) && mergeOk (trieSet m (keyOf e) meta.dec) rest

/-- The claim's assumption on a journal: every `DEC` record is preceded by a
matching (unconsumed) `NEW_INC` or `INC` record for the same address — at each
`DEC`, strictly more increment records than decrement records precede it. -/
def claimC8Assumption (recs : List Object) : Prop :=
  ∀ i, i < recs.length → isDecRec (recs.getD i ⟨0, 0⟩) = true →
    cDec (recs.take i) (keyOf (recs.getD i ⟨0, 0⟩)) <
      cInc (recs.take i) (keyOf (recs.getD i ⟨0, 0⟩))

/-- No address reuse within a drain: a `NEW` or `NEW_INC` record never concerns
an address for which an earlier record was journaled (fresh allocations get
fresh addresses while the previous occupant of the address is still tracked). -/
def noReuse : List Object → Bool
  | [] => true
  | e :: rest =>
    rest.all (fun e2 => !(isNewRec e2 && keyOf e2 == keyOf e)) && noReuse rest

/-- C8 counterexample: the journal `[NEW_INC a, DEC a, NEW a]` (address
`a = 8`, trie key 1) satisfies the claim's assumption — its only DEC is
preceded by a matching NEW_INC — yet the trailing NEW record overwrites the
refcount-1 entry with a refcount-0 one, the sweep then drops the entry, and
at merge time the deferred DEC finds no entry at all: the `unreachable!()`
abort branch is reached, refuting the claim. -/
theorem claim_C8_counterexample :
    claimC8Assumption [⟨11, 40⟩, ⟨8, 40⟩, ⟨10, 40⟩] ∧
    mergeOk
      (sweepMap (markMap (fun _ => false) (drain [⟨11, 40⟩, ⟨8, 40⟩, ⟨10, 40⟩]).roots))
      (drain [⟨11, 40⟩, ⟨8, 40⟩, ⟨10, 40⟩]).deferred = false := by
  constructor
  · intro i hi
    have hi3 : i < 3 := hi
    interval_cases i <;> decide
  · decide

theorem flagOf_lt_four (e : Object) : flagOf e < 4 := by
  have h := Nat.and_le_right (n := e.ptr) (m := 3)
  unfold flagOf FLAGS_MASK
  omega

theorem readEntry_new_inc (s : DrainState) (e : Object) (h : flagOf e = NEW_INC) :
    readEntry s e =
      { s with roots := trieSet s.roots (keyOf e) (RootMeta.one e.vtable NEW_BIT) } := by
  rw [readEntry, if_pos h]

theorem readEntry_new (s : DrainState) (e : Object) (h : flagOf e = NEW) :
    readEntry s e =
      { s with roots := trieSet s.roots (keyOf e) (RootMeta.zero e.vtable NEW_BIT) } := by
  have h3 : flagOf e ≠ NEW_INC := by rw [h]; decide
  rw [readEntry, if_neg h3, if_pos h]

theorem readEntry_inc (s : DrainState) (e : Object) (h : flagOf e = INC) :
    readEntry s e =
      { s with
        roots :=
          trieSet s.roots (keyOf e)
            (((s.roots (keyOf e)).getD (RootMeta.zero e.vtable 0)).inc) } := by
  have h3 : flagOf e ≠ NEW_INC := by rw [h]; decide
  have h2 : flagOf e ≠ NEW := by rw [h]; decide
  rw [readEntry, if_neg h3, if_neg h2, if_pos h]

theorem readEntry_dec (s : DrainState) (e : Object) (h : flagOf e = DEC) :
    readEntry s e = { s with deferred := s.deferred ++ [e] } := by
  have h3 : flagOf e ≠ NEW_INC := by rw [h]; decide
  have h2 : flagOf e ≠ NEW := by rw [h]; decide
  have h1 : flagOf e ≠ INC := by rw [h]; decide
  rw [readEntry, if_neg h3, if_neg h2, if_neg h1, if_pos h]

theorem drain_append (recs : List Object) (e : Object) :
    drain (recs ++ [e]) = readEntry (drain recs) e := by
  rw [drain, drain, List.foldl_append]
  rfl

theorem drain_deferred (recs : List Object) :
    (drain recs).deferred = recs.filter fun e => isDecRec e := by
  induction recs using List.reverseRecOn with
  | nil => rfl
  | append_singleton recs e ih =>
    rw [drain_append, List.filter_append]
    have h4 := flagOf_lt_four e
    have hcases : flagOf e = 0 ∨ flagOf e = 1 ∨ flagOf e = 2 ∨ flagOf e = 3 := by omega
    rcases hcases with h | h | h | h
    · rw [readEntry_dec _ _ h]
      have hd : isDecRec e = true := by simp [isDecRec, h, DEC]
      have hfil : List.filter (fun e2 => isDecRec e2) [e] = [e] := by simp [hd]
      rw [hfil, ih]
    · rw [readEntry_inc _ _ h]
      have hd : isDecRec e = false := by simp [isDecRec, h, DEC]
      have hfil : List.filter (fun e2 => isDecRec e2) [e] = [] := by simp [hd]
      rw [hfil, List.append_nil]
      exact ih
    · rw [readEntry_new _ _ h]
      have hd : isDecRec e = false := by simp [isDecRec, h, DEC]
      have hfil : List.filter (fun e2 => isDecRec e2) [e] = [] := by simp [hd]
      rw [hfil, List.append_nil]
      exact ih
    · rw [readEntry_new_inc _ _ h]
      have hd : isDecRec e = false := by simp [isDecRec, h, DEC]
      have hfil : List.filter (fun e2 => isDecRec e2) [e] = [] := by simp [hd]
      rw [hfil, List.append_nil]
      exact ih

theorem noReuse_append_last (recs : List Object) (e : Object)
    (h : noReuse (recs ++ [e]) = true) :
    noReuse recs = true ∧
    (isNewRec e = true → ∀ e2 ∈ recs, keyOf e2 ≠ keyOf e) := by
  induction recs with
  | nil => exact ⟨rfl, fun _ e2 h2 => absurd h2 (by simp)⟩
  | cons r rest ih =>
    have h2 : ((rest ++ [e]).all (fun e2 => !(isNewRec e2 && keyOf e2 == keyOf r)) &&
        noReuse (rest ++ [e])) = true := h
    obtain ⟨hall, hrest⟩ := (Bool.and_eq_true _ _) ▸ h2
    obtain ⟨hnr, hkey⟩ := ih hrest
    rw [List.all_append] at hall
    obtain ⟨hall1, hall2⟩ := (Bool.and_eq_true _ _) ▸ hall
    constructor
    · show (rest.all (fun e2 => !(isNewRec e2 && keyOf e2 == keyOf r)) &&
        noReuse rest) = true
      rw [hall1, hnr]
      rfl
    · intro hnew e2 he2
      rcases List.mem_cons.mp he2 with rfl | hmem
      · have he : (!(isNewRec e && keyOf e == keyOf e2)) = true := by
          have := List.all_eq_true.mp hall2 e (by simp)
          exact this
        rw [hnew] at he
        simp at he
        omega
      · exact hkey hnew e2 hmem

theorem countP_append_last (p : Object → Bool) (recs : List Object) (e : Object) :
    List.countP p (recs ++ [e]) =
      List.countP p recs + (if p e = true then 1 else 0) := by
  rw [List.countP_append, List.countP_cons, List.countP_nil, Nat.zero_add]

theorem cInc_append_last (recs : List Object) (e : Object) (k : Nat) :
    cInc (recs ++ [e]) k =
      cInc recs k + (if (isIncRec e && keyOf e == k) = true then 1 else 0) := by
  rw [cInc, cInc]
  exact countP_append_last _ recs e

theorem cDec_append_last (recs : List Object) (e : Object) (k : Nat) :
    cDec (recs ++ [e]) k =
      cDec recs k + (if (isDecRec e && keyOf e == k) = true then 1 else 0) := by
  rw [cDec, cDec]
  exact countP_append_last _ recs e

theorem trieSet_ne (m : Nat → Option RootMeta) (key k : Nat) (v : RootMeta)
    (hk : ¬ k = key) : trieSet m key v k = m k := by
  simp [trieSet, hk]

theorem drain_roots_count :
    ∀ recs : List Object, noReuse recs = true → recs.length < usizeMod →
      ∀ k, ((drain recs).roots k = none → cInc recs k = 0) ∧
        (∀ meta, (drain recs).roots k = some meta → meta.refcount = cInc recs k) := by
  intro recs
  induction recs using List.reverseRecOn with
  | nil =>
    intro _ _ k
    exact ⟨fun _ => rfl, fun meta h => nomatch h⟩
  | append_singleton recs e ih =>
    intro hnr hlen k
    obtain ⟨hnr0, hkey⟩ := noReuse_append_last recs e hnr
    have hlen1 : recs.length + 1 < usizeMod := by
      rw [List.length_append] at hlen
      simpa using hlen
    have ih2 := ih hnr0 (by omega)
    rw [drain_append]
    have h4 := flagOf_lt_four e
    have hcases : flagOf e = 0 ∨ flagOf e = 1 ∨ flagOf e = 2 ∨ flagOf e = 3 := by omega
    rcases hcases with h | h | h | h
    · rw [readEntry_dec _ _ h]
      have hinc : isIncRec e = false := by simp [isIncRec, h, INC, NEW_INC]
      have hadd : cInc (recs ++ [e]) k = cInc recs k := by
        rw [cInc_append_last, hinc]
        simp
      rw [hadd]
      exact ih2 k
    · rw [readEntry_inc _ _ h]
      have hinc : isIncRec e = true := by simp [isIncRec, h, INC, NEW_INC]
      by_cases hk : k = keyOf e
      · subst hk
        have hadd : cInc (recs ++ [e]) (keyOf e) = cInc recs (keyOf e) + 1 := by
          rw [cInc_append_last, hinc]
          simp
        rw [hadd]
        constructor
        · intro hnone
          simp [trieSet] at hnone
        · intro meta hmeta
          have hmeta2 :
              (((drain recs).roots (keyOf e)).getD (RootMeta.zero e.vtable 0)).inc = meta := by
            simpa [trieSet] using hmeta
          cases hroot : (drain recs).roots (keyOf e) with
          | none =>
            rw [hroot] at hmeta2
            have hc0 : cInc recs (keyOf e) = 0 := (ih2 (keyOf e)).1 hroot
            rw [← hmeta2, hc0]
            show (0 + 1) % usizeMod = 0 + 1
            decide
          | some m0 =>
            rw [hroot] at hmeta2
            have hrc : m0.refcount = cInc recs (keyOf e) := (ih2 (keyOf e)).2 m0 hroot
            have hbound : cInc recs (keyOf e) ≤ recs.length := List.countP_le_length _
            rw [← hmeta2]
            show (m0.refcount + 1) % usizeMod = cInc recs (keyOf e) + 1
            rw [hrc]
            exact Nat.mod_eq_of_lt (by omega)
      · have hbk : (keyOf e == k) = false := by
          rw [beq_eq_false_iff_ne]
          omega
        have hadd : cInc (recs ++ [e]) k = cInc recs k := by
          rw [cInc_append_last, hbk]
          simp
        rw [hadd]
        constructor
        · intro hnone
          have hnone2 : trieSet (drain recs).roots (keyOf e)
              (((drain recs).roots (keyOf e)).getD (RootMeta.zero e.vtable 0)).inc k =
              none := hnone
          rw [trieSet_ne _ _ _ _ hk] at hnone2
          exact (ih2 k).1 hnone2
        · intro meta hmeta
          have hmeta2 : trieSet (drain recs).roots (keyOf e)
              (((drain recs).roots (keyOf e)).getD (RootMeta.zero e.vtable 0)).inc k =
              some meta := hmeta
          rw [trieSet_ne _ _ _ _ hk] at hmeta2
          exact (ih2 k).2 meta hmeta2
    · rw [readEntry_new _ _ h]
      have hinc : isIncRec e = false := by simp [isIncRec, h, INC, NEW_INC]
      have hnewr : isNewRec e = true := by simp [isNewRec, h, NEW, NEW_INC]
      have hadd : cInc (recs ++ [e]) k = cInc recs k := by
        rw [cInc_append_last, hinc]
        simp
      rw [hadd]
      by_cases hk : k = keyOf e
      · subst hk
        have hcnt0 : cInc recs (keyOf e) = 0 := by
          rw [cInc, List.countP_eq_zero]
          intro a ha hpa
          obtain ⟨_, hk2⟩ := (Bool.and_eq_true _ _) ▸ hpa
          exact hkey hnewr a ha (beq_iff_eq.mp hk2)
        constructor
        · intro hnone
          simp [trieSet] at hnone
        · intro meta hmeta
          have hmeta2 : RootMeta.zero e.vtable NEW_BIT = meta := by
            simpa [trieSet] using hmeta
          rw [← hmeta2, hcnt0]
          rfl
      · constructor
        · intro hnone
          have hnone2 : trieSet (drain recs).roots (keyOf e)
              (RootMeta.zero e.vtable NEW_BIT) k = none := hnone
          rw [trieSet_ne _ _ _ _ hk] at hnone2
          exact (ih2 k).1 hnone2
        · intro meta hmeta
          have hmeta2 : trieSet (drain recs).roots (keyOf e)
              (RootMeta.zero e.vtable NEW_BIT) k = some meta := hmeta
          rw [trieSet_ne _ _ _ _ hk] at hmeta2
          exact (ih2 k).2 meta hmeta2
    · rw [readEntry_new_inc _ _ h]
      have hinc : isIncRec e = true := by simp [isIncRec, h, INC, NEW_INC]
      have hnewr : isNewRec e = true := by simp [isNewRec, h, NEW, NEW_INC]
      by_cases hk : k = keyOf e
      · subst hk
        have hcnt0 : cInc recs (keyOf e) = 0 := by
          rw [cInc, List.countP_eq_zero]
          intro a ha hpa
          obtain ⟨_, hk2⟩ := (Bool.and_eq_true _ _) ▸ hpa
          exact hkey hnewr a ha (beq_iff_eq.mp hk2)
        have hadd : cInc (recs ++ [e]) (keyOf e) = cInc recs (keyOf e) + 1 := by
          rw [cInc_append_last, hinc]
          simp
        rw [hadd, hcnt0]
        constructor
        · intro hnone
          simp [trieSet] at hnone
        · intro meta hmeta
          have hmeta2 : RootMeta.one e.vtable NEW_BIT = meta := by
            simpa [trieSet] using hmeta
          rw [← hmeta2]
          rfl
      · have hbk : (keyOf e == k) = false := by
          rw [beq_eq_false_iff_ne]
          omega
        have hadd : cInc (recs ++ [e]) k = cInc recs k := by
          rw [cInc_append_last, hbk]
          simp
        rw [hadd]
        constructor
        · intro hnone
          have hnone2 : trieSet (drain recs).roots (keyOf e)
              (RootMeta.one e.vtable NEW_BIT) k = none := hnone
          rw [trieSet_ne _ _ _ _ hk] at hnone2
          exact (ih2 k).1 hnone2
        · intro meta hmeta
          have hmeta2 : trieSet (drain recs).roots (keyOf e)
              (RootMeta.one e.vtable NEW_BIT) k = some meta := hmeta
          rw [trieSet_ne _ _ _ _ hk] at hmeta2
          exact (ih2 k).2 meta hmeta2

theorem claimC8Assumption_restrict (recs : List Object) (e : Object)
    (hA : claimC8Assumption (recs ++ [e])) : claimC8Assumption recs := by
  intro i hi hdec
  have hi2 : i < (recs ++ [e]).length := by
    rw [List.length_append]
    omega
  have hg : (recs ++ [e]).getD i ⟨0, 0⟩ = recs.getD i ⟨0, 0⟩ :=
    List.getD_append _ _ _ i hi
  have ht : (recs ++ [e]).take i = recs.take i :=
    List.take_append_of_le_length (by omega)
  have h2 := hA i hi2
  rw [hg, ht] at h2
  exact h2 hdec

theorem claimC8Assumption_total :
    ∀ recs : List Object, claimC8Assumption recs → ∀ k, cDec recs k ≤ cInc recs k := by
  intro recs
  induction recs using List.reverseRecOn with
  | nil => intro _ k; exact Nat.le_refl 0
  | append_singleton recs e ih =>
    intro hA k
    have hA0 := claimC8Assumption_restrict recs e hA
    have ihk := ih hA0 k
    rw [cDec_append_last, cInc_append_last]
    by_cases hdec : isDecRec e = true
    · have hfe : flagOf e = DEC := beq_iff_eq.mp hdec
      have hif : isIncRec e = false := by simp [isIncRec, hfe, DEC, INC, NEW_INC]
      by_cases hbk : (keyOf e == k) = true
      · have hklen : recs.length < (recs ++ [e]).length := by simp
        have hgd : (recs ++ [e]).getD recs.length ⟨0, 0⟩ = e := by
          rw [List.getD_append_right _ _ _ _ (Nat.le_refl _)]
          simp
        have htk : (recs ++ [e]).take recs.length = recs := by
          rw [List.take_append_of_le_length (Nat.le_refl _), List.take_length]
        have hlt := hA recs.length hklen
        rw [hgd, htk] at hlt
        have hlt2 := hlt hdec
        have hk2 : keyOf e = k := beq_iff_eq.mp hbk
        subst hk2
        rw [hdec, hif]
        simp
        omega
      · have hbkf : (keyOf e == k) = false := by
          cases hb : keyOf e == k
          · rfl
          · exact absurd hb hbk
        rw [hbkf]
        simp
        omega
    · have hdf : isDecRec e = false := by
        cases hb : isDecRec e
        · rfl
        · exact absurd hb hdec
      rw [hdf]
      simp only [Bool.false_and, if_neg, Nat.add_zero]
      by_cases hadd : (isIncRec e && (keyOf e == k)) = true
      · rw [hadd]
        simp
        omega
      · have haddf : (isIncRec e && (keyOf e == k)) = false := by
          cases hb : isIncRec e && (keyOf e == k)
          · rfl
          · exact absurd hb hadd
        rw [haddf]
        simp
        omega

theorem mark_refcount (m : RootMeta) :
    (m.mark_and_needs_trace).1.refcount = m.refcount := by
  show (if (m.flags &&& MARK_BIT == 0) = true then
      { m with flags := m.flags ||| MARK_BIT } else m).refcount = m.refcount
  split
  · rfl
  · rfl

theorem mark_marked (m : RootMeta) :
    (m.mark_and_needs_trace).1.flags &&& MARK_BIT = 1 := by
  show (if (m.flags &&& MARK_BIT == 0) = true then
      { m with flags := m.flags ||| MARK_BIT } else m).flags &&& MARK_BIT = 1
  by_cases h : (m.flags &&& MARK_BIT == 0) = true
  · rw [if_pos h]
    exact lor_one_land_one m.flags
  · rw [if_neg h]
    have h2 : ¬ m.flags &&& MARK_BIT = 0 := fun hz => h (by rw [hz]; rfl)
    show m.flags &&& 1 = 1
    rw [land_one_eq_mod]
    have h3 : m.flags &&& 1 = m.flags % 2 := land_one_eq_mod m.flags
    have h4 : ¬ m.flags &&& 1 = 0 := h2
    rw [h3] at h4
    omega

theorem sweepEntry_keep_of_marked (k : Nat) (meta : RootMeta)
    (hmark : meta.flags &&& MARK_BIT = 1) (hrc : meta.refcount ≠ 0) :
    sweepEntry k meta = .keepEntry meta.unmark := by
  have hnn : meta.is_new_and_unmarked = false := by
    rw [RootMeta.is_new_and_unmarked]
    show (meta.flags &&& 3 == 2) = false
    rw [beq_eq_false_iff_ne, land_three_eq_mod]
    have h1 : meta.flags &&& 1 = meta.flags % 2 := land_one_eq_mod meta.flags
    have h2 : meta.flags &&& 1 = 1 := hmark
    omega
  have hcond : (!meta.is_new && meta.unsync_is_unrooted) = false := by
    simp [RootMeta.unsync_is_unrooted, hrc]
  rw [sweepEntry, if_neg (by simp [hnn]), if_neg (by simp [hcond])]

theorem mark_sweep_keeps_rooted (m : Nat → Option RootMeta) (extra : Nat → Bool)
    (k : Nat) (meta : RootMeta) (hm : m k = some meta) (hrc : meta.refcount ≠ 0) :
    ∃ meta2, sweepMap (markMap extra m) k = some meta2 ∧
      meta2.refcount = meta.refcount := by
  have hvis : (!meta.unsync_is_unrooted || !meta.is_new) = true := by
    simp [RootMeta.unsync_is_unrooted, hrc]
  have hv1 : minorMarkVisit meta = meta.mark_and_needs_trace := by
    rw [minorMarkVisit, if_pos hvis]
  have hmrc : (minorMarkVisit meta).1.refcount = meta.refcount := by
    rw [hv1]
    exact mark_refcount meta
  have hmark : (minorMarkVisit meta).1.flags &&& MARK_BIT = 1 := by
    rw [hv1]
    exact mark_marked meta
  by_cases hx : extra k = true
  · have hmap : markMap extra m k =
        some { (minorMarkVisit meta).1 with
          flags := (minorMarkVisit meta).1.flags ||| MARK_BIT } := by
      simp [markMap, hm, hx]
    have hFmark : ({ (minorMarkVisit meta).1 with
        flags := (minorMarkVisit meta).1.flags ||| MARK_BIT } : RootMeta).flags &&&
          MARK_BIT = 1 :=
      lor_one_land_one _
    have hFrc : ({ (minorMarkVisit meta).1 with
        flags := (minorMarkVisit meta).1.flags ||| MARK_BIT } : RootMeta).refcount =
          meta.refcount := hmrc
    refine ⟨({ (minorMarkVisit meta).1 with
        flags := (minorMarkVisit meta).1.flags ||| MARK_BIT } : RootMeta).unmark, ?_, ?_⟩
    · show ((markMap extra m k).bind fun meta =>
        match sweepEntry k meta with
        | .keepEntry meta2 => some meta2
        | _ => none) = _
      rw [hmap, Option.some_bind,
        sweepEntry_keep_of_marked k _ hFmark (by rw [hFrc]; exact hrc)]
    · exact hFrc
  · have hxf : extra k = false := by
      cases hb : extra k
      · rfl
      · exact absurd hb hx
    have hmap : markMap extra m k = some (minorMarkVisit meta).1 := by
      simp [markMap, hm, hxf]
    refine ⟨(minorMarkVisit meta).1.unmark, ?_, ?_⟩
    · show ((markMap extra m k).bind fun meta =>
        match sweepEntry k meta with
        | .keepEntry meta2 => some meta2
        | _ => none) = _
      rw [hmap, Option.some_bind,
        sweepEntry_keep_of_marked k _ hmark (by rw [hmrc]; exact hrc)]
    · exact hmrc

theorem mergeOk_of_counts :
    ∀ (ds : List Object) (m : Nat → Option RootMeta),
      (∀ k, 0 < ds.countP (fun e => keyOf e == k) →
        ∃ meta, m k = some meta ∧
          ds.countP (fun e => keyOf e == k) ≤ meta.refcount ∧
          meta.refcount < usizeMod) →
      mergeOk m ds = true := by
  intro ds
  induction ds with
  | nil => intro m _; rfl
  | cons e rest ih =>
    intro m h
    have hcnt : (e :: rest).countP (fun e2 => keyOf e2 == keyOf e) =
        rest.countP (fun e2 => keyOf e2 == keyOf e) + 1 := by
      rw [List.countP_cons]
      simp
    obtain ⟨meta, hm, hcount, hlt⟩ := h (keyOf e) (by rw [hcnt]; omega)
    rw [hcnt] at hcount
    have hlt2 : meta.refcount < 2 ^ 64 := hlt
    have h1le : 1 ≤ meta.refcount := by omega
    have hdec : meta.dec.refcount = meta.refcount - 1 := by
      show (meta.refcount + (2 ^ 64 - 1)) % 2 ^ 64 = meta.refcount - 1
      omega
    show (match m (keyOf e) with
      | none => false
      | some meta =>
        decide (1 ≤ meta.refcount) && mergeOk (trieSet m (keyOf e) meta.dec) rest) = true
    rw [hm]
    show (decide (1 ≤ meta.refcount) && mergeOk (trieSet m (keyOf e) meta.dec) rest) = true
    rw [decide_eq_true h1le, Bool.true_and]
    apply ih
    intro k hk
    by_cases hke : k = keyOf e
    · subst hke
      refine ⟨meta.dec, by simp [trieSet], ?_, ?_⟩
      · rw [hdec]
        omega
      · rw [hdec]
        omega
    · have hcnt2 : (e :: rest).countP (fun e2 => keyOf e2 == k) =
          rest.countP (fun e2 => keyOf e2 == k) := by
        rw [List.countP_cons]
        have hbf : (keyOf e == k) = false := by
          rw [beq_eq_false_iff_ne]
          omega
        simp [hbf]
      obtain ⟨meta2, hm2, hc2, hl2⟩ := h k (by rw [hcnt2]; omega)
      rw [hcnt2] at hc2
      refine ⟨meta2, ?_, hc2, hl2⟩
      rw [trieSet_ne _ _ _ _ hke]
      exact hm2

/-- C8 (amended): assuming the journal's records are applied in program order,
that every `DEC` is preceded by a matching `NEW_INC` or `INC` for the same
address, that no `NEW`/`NEW_INC` record reuses an address journaled earlier in
the drain, and that the journal holds fewer than `2 ^ 64` records, every
deferred `DEC` finds its address present in the root map after the minor mark
and sweep with refcount at least 1 — so the wrapping decrement never
underflows and the abort branch for a missing address is unreachable
(`mergeOk` returns `true`), whatever extra entries the trace walk marked. -/
theorem claim_C8_amended (recs : List Object) (extra : Nat → Bool)
    (hA : claimC8Assumption recs) (hnr : noReuse recs = true)
    (hlen : recs.length < usizeMod) :
    mergeOk (sweepMap (markMap extra (drain recs).roots))
      ((drain recs).deferred) = true := by
  rw [drain_deferred]
  apply mergeOk_of_counts
  intro k hk
  have hdk : (recs.filter (fun e => isDecRec e)).countP (fun e => keyOf e == k) =
      cDec recs k := by
    rw [List.countP_filter, cDec]
    exact List.countP_congr fun a _ => by
      cases h1 : isDecRec a <;> cases h2 : keyOf a == k <;> simp [h1, h2]
  have hci : cDec recs k ≤ cInc recs k := claimC8Assumption_total recs hA k
  have hcd : 0 < cDec recs k := hdk ▸ hk
  cases hroot : (drain recs).roots k with
  | none =>
    have h0 := (drain_roots_count recs hnr hlen k).1 hroot
    omega
  | some meta =>
    have hrc : meta.refcount = cInc recs k :=
      (drain_roots_count recs hnr hlen k).2 meta hroot
    have hrcne : meta.refcount ≠ 0 := by omega
    obtain ⟨meta2, hs, hrc2⟩ := mark_sweep_keeps_rooted _ extra k meta hroot hrcne
    have hle : cInc recs k ≤ recs.length := List.countP_le_length _
    refine ⟨meta2, hs, ?_, ?_⟩
    · rw [hdk, hrc2, hrc]
      exact hci
    · rw [hrc2, hrc]
      omega

/-- C8 amended witness: the journal `[NEW_INC a, INC a, DEC a, DEC a]`
(address `a = 8`) satisfies all assumptions and merges safely. -/
theorem claim_C8_amended_witness :
    mergeOk
      (sweepMap (markMap (fun _ => false)
        (drain [⟨11, 40⟩, ⟨9, 40⟩, ⟨8, 40⟩, ⟨8, 40⟩]).roots))
      (drain [⟨11, 40⟩, ⟨9, 40⟩, ⟨8, 40⟩, ⟨8, 40⟩]).deferred = true :=
  claim_C8_amended [⟨11, 40⟩, ⟨9, 40⟩, ⟨8, 40⟩, ⟨8, 40⟩] (fun _ => false)
    (by
      intro i hi
      have hi4 : i < 4 := hi
      interval_cases i <;> decide)
    (by decide)
    (by decide)

end MoGc
